import Mathlib

/-!
Verification of the `utf8-chunked` incremental UTF-8 decoder.

The Rust source (`src/lib.rs`) is shallowly embedded: bytes are `Nat`s
(machine bytes are `< 256`; hypotheses carry this bound where it matters),
the decoder state `Utf8Chunker { buf: Vec<u8> }` is a `List Nat`, and text
values are represented by their UTF-8 byte sequences (`List Nat`), which is
faithful because UTF-8 encoding of text is injective.

`core::str::from_utf8` and its `valid_up_to` / `error_len` data, and
`String::from_utf8_lossy`, are modelled byte-exactly after Rust's UTF-8
validator (strict table: no overlong forms, no surrogates, max U+10FFFF).
-/

namespace Utf8Chunked

/-- `utf8_char_len` from `src/lib.rs` (lines 218-230): expected length of a
UTF-8 character from its leading byte, computed from bit masks; 0 for
invalid leading bytes. -/
def utf8_char_len (b : Nat) : Nat :=
  if b &&& 0x80 = 0 then 1
  else if b &&& 0xE0 = 0xC0 then 2
  else if b &&& 0xF0 = 0xE0 then 3
  else if b &&& 0xF8 = 0xF0 then 4
  else 0

/-- A UTF-8 continuation byte: `0x80..=0xBF` (exactly the bytes whose top
two bits are `10` among values `< 256`). -/
def contB (b : Nat) : Bool := decide (0x80 ≤ b ∧ b ≤ 0xBF)

/-- Allowed second byte of a three-byte sequence, per Rust's
`run_utf8_validation` table: `(0xE0, 0xA0..=0xBF)`, `(0xED, 0x80..=0x9F)`,
otherwise a plain continuation byte. -/
def sndOK3 (b c : Nat) : Bool :=
  if b = 0xE0 then decide (0xA0 ≤ c ∧ c ≤ 0xBF)
  else if b = 0xED then decide (0x80 ≤ c ∧ c ≤ 0x9F)
  else contB c

/-- Allowed second byte of a four-byte sequence, per Rust's validator table:
`(0xF0, 0x90..=0xBF)`, `(0xF4, 0x80..=0x8F)`, otherwise a continuation. -/
def sndOK4 (b c : Nat) : Bool :=
  if b = 0xF0 then decide (0x90 ≤ c ∧ c ≤ 0xBF)
  else if b = 0xF4 then decide (0x80 ≤ c ∧ c ≤ 0x8F)
  else contB c

/-- Length of the complete, valid UTF-8 scalar encoding at the head of `l`
(0 if the head does not start a complete valid encoding).  This is the
per-character step of Rust's `core::str::from_utf8` validator. -/
def validCharLen : List Nat → Nat
  | [] => 0
  | b :: rest =>
    if b ≤ 0x7F then 1
    else if 0xC2 ≤ b ∧ b ≤ 0xDF then
      match rest with
      | c :: _ => if contB c then 2 else 0
      | [] => 0
    else if 0xE0 ≤ b ∧ b ≤ 0xEF then
      match rest with
      | c :: d :: _ => if sndOK3 b c && contB d then 3 else 0
      | _ => 0
    else if 0xF0 ≤ b ∧ b ≤ 0xF4 then
      match rest with
      | c :: d :: e :: _ => if sndOK4 b c && contB d && contB e then 4 else 0
      | _ => 0
    else 0

/-- Fuelled greedy scan consuming complete valid scalar encodings. -/
def validUpToFuel : Nat → List Nat → Nat
  | 0, _ => 0
  | fuel + 1, l =>
    let k := validCharLen l
    if k = 0 then 0 else k + validUpToFuel fuel (l.drop k)

/-- `Utf8Error::valid_up_to` of Rust's `core::str::from_utf8` on `l`: the
length of the longest prefix of `l` that is a concatenation of complete
valid UTF-8 scalar encodings (equals `l.length` iff `l` is valid UTF-8). -/
def utf8ValidUpTo (l : List Nat) : Nat := validUpToFuel l.length l

/-- `core::str::from_utf8 l` succeeds iff `utf8IsValid l = true`. -/
def utf8IsValid (l : List Nat) : Bool := utf8ValidUpTo l == l.length

/-- The loop of `incomplete_sequence_len` (`src/lib.rs` lines 181-208).
`i` is the loop counter of `for i in (0..check_len).rev()` (so `i` runs
from `check_len - 1` down to 0); the examined byte is
`trailing[len - 1 - i]`.  `some n` models a `return n`; `none` models
falling out of the loop. -/
def iseqGo (trailing : List Nat) : Nat → Option Nat
  | 0 =>
    let byte := trailing.getD (trailing.length - 1) 0
    if byte &&& 0x80 = 0 then some 0
    else if byte &&& 0xC0 ≠ 0x80 then
      let expected := utf8_char_len byte
      if 0 < expected ∧ 0 + 1 < expected then some (0 + 1) else some 0
    else none
  | j + 1 =>
    let byte := trailing.getD (trailing.length - 1 - (j + 1)) 0
    if byte &&& 0x80 = 0 then iseqGo trailing j
    else if byte &&& 0xC0 ≠ 0x80 then
      let expected := utf8_char_len byte
      if 0 < expected ∧ (j + 1) + 1 < expected then some ((j + 1) + 1) else some 0
    else iseqGo trailing j

/-- `incomplete_sequence_len` from `src/lib.rs` (lines 171-213): how many
trailing bytes the chunker keeps in its buffer. -/
def incomplete_sequence_len (trailing : List Nat) : Nat :=
  if trailing = [] then 0
  else
    let check_len := min trailing.length 4
    match iseqGo trailing (check_len - 1) with
    | some n => n
    | none => min check_len 3

/-- `Utf8Chunker::push` from `src/lib.rs` (lines 81-137).  The state is the
`buf` field; the result is the returned `Option<String>` (as UTF-8 bytes)
paired with the new buffer.  Note that the `incomplete_len == 0 &&
valid_up_to == 0` early return (lines 110-114) does *not* clear the
buffer, exactly as in the source. -/
def push (buf data : List Nat) : Option (List Nat) × List Nat :=
  if data = [] then (none, buf)
  else if buf = [] ∧ utf8IsValid data = true then (some data, buf)
  else
    let merged := buf ++ data
    if utf8IsValid merged = true then (some merged, [])
    else
      let v := utf8ValidUpTo merged
      let trailing := merged.drop v
      let n := incomplete_sequence_len trailing
      if n = 0 ∧ v = 0 then (none, merged)
      else
        (if 0 < v then some (merged.take v) else none,
         if 0 < n then merged.drop (merged.length - n) else [])

/-- The general (buffer-concatenating) path of `Utf8Chunker::push`
(`src/lib.rs` lines 93-137): identical to `push` with the fast path
(lines 87-91) removed.  Used to state fast-path/general-path equivalence. -/
def pushGeneral (buf data : List Nat) : Option (List Nat) × List Nat :=
  if data = [] then (none, buf)
  else
    let merged := buf ++ data
    if utf8IsValid merged = true then (some merged, [])
    else
      let v := utf8ValidUpTo merged
      let trailing := merged.drop v
      let n := incomplete_sequence_len trailing
      if n = 0 ∧ v = 0 then (none, merged)
      else
        (if 0 < v then some (merged.take v) else none,
         if 0 < n then merged.drop (merged.length - n) else [])

/-- Rust's `Utf8Error::error_len` at a position where no complete valid
scalar encoding starts: `some k` means the next `k` bytes are an invalid
sequence (replaced by one U+FFFD by lossy decoding), `none` means the
remaining bytes are an incomplete prefix of a valid sequence reaching the
end of the input.  Mirrors `run_utf8_validation`'s error reporting. -/
def invalidSeqLen : List Nat → Option Nat
  | [] => some 1
  | b :: rest =>
    if b ≤ 0x7F then some 1
    else if 0xC2 ≤ b ∧ b ≤ 0xDF then
      match rest with
      | [] => none
      | c :: _ => if contB c then some 2 else some 1
    else if 0xE0 ≤ b ∧ b ≤ 0xEF then
      match rest with
      | [] => none
      | c :: rest2 =>
        if sndOK3 b c then
          match rest2 with
          | [] => none
          | d :: _ => if contB d then some 3 else some 2
        else some 1
    else if 0xF0 ≤ b ∧ b ≤ 0xF4 then
      match rest with
      | [] => none
      | c :: rest2 =>
        if sndOK4 b c then
          match rest2 with
          | [] => none
          | d :: rest3 =>
            if contB d then
              match rest3 with
              | [] => none
              | e :: _ => if contB e then some 4 else some 3
            else some 2
        else some 1
    else some 1

/-- Fuelled body of `String::from_utf8_lossy`: emit the valid prefix, then
one U+FFFD (bytes `EF BF BD`) per maximal invalid subpart, resuming after
it; an incomplete sequence at the end of input is replaced by a single
U+FFFD. -/
def lossyGo : Nat → List Nat → List Nat
  | 0, _ => []
  | fuel + 1, l =>
    let v := utf8ValidUpTo l
    let rest := l.drop v
    if rest = [] then l
    else
      l.take v ++ 0xEF :: 0xBF :: 0xBD ::
        (match invalidSeqLen rest with
         | some k => lossyGo fuel (rest.drop k)
         | none => [])

/-- `String::from_utf8_lossy l` as UTF-8 bytes. -/
def utf8Lossy (l : List Nat) : List Nat := lossyGo (l.length + 1) l

/-- `Utf8Chunker::flush` from `src/lib.rs` (lines 145-152). -/
def flush (buf : List Nat) : Option (List Nat) × List Nat :=
  if buf = [] then (none, buf) else (some (utf8Lossy buf), [])

/-- `Utf8Chunker::is_empty` (lines 156-158). -/
def is_empty (buf : List Nat) : Bool := buf = []

/-- `Utf8Chunker::buffered_len` (lines 162-164). -/
def buffered_len (buf : List Nat) : Nat := buf.length

/-- Bytes contributed by one `push` result to the caller-visible text. -/
def outBytes : Option (List Nat) → List Nat
  | none => []
  | some s => s

/-- Feed a list of chunks through `push` in order, collecting the `some`
outputs (in order) and the final buffer. -/
def pushChunks (buf : List Nat) : List (List Nat) → List (List Nat) × List Nat
  | [] => ([], buf)
  | c :: cs =>
    let r := push buf c
    let rest := pushChunks r.2 cs
    (match r.1 with
     | some s => s :: rest.1
     | none => rest.1, rest.2)

/-- Decoder states reachable from `Utf8Chunker::new()` by `push` calls with
arbitrary byte-slice (`u8`) inputs and by `flush` calls. -/
inductive Reachable : List Nat → Prop
  | new : Reachable []
  | push (b d : List Nat) : Reachable b → (∀ x ∈ d, x < 256) →
      Reachable (push b d).2
  | flush (b : List Nat) : Reachable b → Reachable (flush b).2

/-- `true` iff the byte sequence contains the UTF-8 encoding
`EF BF BD` of U+FFFD (the replacement character) as a contiguous run. -/
def hasFFFD : List Nat → Bool
  | b :: c :: d :: rest =>
    (b == 0xEF && c == 0xBF && d == 0xBD) || hasFFFD (c :: d :: rest)
  | _ => false

/-- Backward scan helper for `specScanBackward`: examine bytes from the end
of `trailing` moving backward (`cnt` bytes already passed, all of them
continuations), inspecting at most `fuel` further bytes. -/
def backGo (trailing : List Nat) (cnt : Nat) : Nat → Option Nat
  | 0 => none
  | fuel + 1 =>
    let byte := trailing.getD (trailing.length - 1 - cnt) 0
    if byte &&& 0xC0 = 0x80 then backGo trailing (cnt + 1) fuel
    else
      let declared := utf8_char_len byte
      if 0 < declared ∧ cnt + 1 < declared then some (cnt + 1) else some 0

/-- Modelled from the spec (§4.1 incomplete-sequence classification, as
restated by claim C4): scan the inspected window (at most the final 4
bytes) backward from the end for the most recent byte whose top two bits
are not `10`; keep the count of bytes from that byte to the end when the
count is short of the length the byte declares, and 0 otherwise; if the
window holds only continuation bytes, retain up to 3 bytes. -/
def specScanBackward (trailing : List Nat) : Nat :=
  if trailing = [] then 0
  else
    let check_len := min trailing.length 4
    match backGo trailing 0 check_len with
    | some n => n
    | none => min check_len 3

/-- Modelled from the spec (Invariant I2 / glossary): a syntactically
plausible *incomplete* prefix of a multi-byte UTF-8 sequence: a leading
byte declaring 2-4 bytes, followed only by continuation bytes, still short
of the declared length. -/
def specPlausibleIncomplete (l : List Nat) : Bool :=
  match l with
  | [] => false
  | b :: rest =>
    (2 ≤ utf8_char_len b) && rest.all contB &&
      decide (l.length < utf8_char_len b)

/-- Modelled from the spec (§4.1 contract item 4): some complete, valid,
non-empty text is assemblable from a byte sequence — a non-empty
contiguous segment of it is valid UTF-8. -/
def hasValidSegment (l : List Nat) : Bool :=
  (List.range l.length).any fun i =>
    (List.range (l.length - i)).any fun k =>
      utf8IsValid ((l.drop i).take (k + 1))

/-! ### Lemmas about the per-character validator -/

theorem validCharLen_le (l : List Nat) : validCharLen l ≤ l.length := by
  match l with
  | [] => simp [validCharLen]
  | [b] => simp only [validCharLen]; split_ifs <;> simp
  | [b, c] => simp only [validCharLen]; split_ifs <;> simp
  | [b, c, d] => simp only [validCharLen]; split_ifs <;> simp
  | b :: c :: d :: e :: t => simp only [validCharLen]; split_ifs <;> simp

theorem validCharLen_le_four (l : List Nat) : validCharLen l ≤ 4 := by
  match l with
  | [] => simp [validCharLen]
  | [b] => simp only [validCharLen]; split_ifs <;> simp
  | [b, c] => simp only [validCharLen]; split_ifs <;> simp
  | [b, c, d] => simp only [validCharLen]; split_ifs <;> simp
  | b :: c :: d :: e :: t => simp only [validCharLen]; split_ifs <;> simp

theorem validCharLen_append (l r : List Nat) (h : validCharLen l ≠ 0) :
    validCharLen (l ++ r) = validCharLen l := by
  match l with
  | [] => simp [validCharLen] at h
  | [b] =>
    simp only [validCharLen, List.cons_append, List.nil_append] at h ⊢
    split_ifs at h ⊢ <;> simp_all
  | [b, c] =>
    simp only [validCharLen, List.cons_append, List.nil_append] at h ⊢
    split_ifs at h ⊢ <;> simp_all
  | [b, c, d] =>
    simp only [validCharLen, List.cons_append, List.nil_append] at h ⊢
    split_ifs at h ⊢ <;> simp_all
  | b :: c :: d :: e :: t =>
    simp only [validCharLen, List.cons_append]

theorem validCharLen_prefix (l r : List Nat)
    (hle : validCharLen (l ++ r) ≤ l.length) (h : validCharLen (l ++ r) ≠ 0) :
    validCharLen l = validCharLen (l ++ r) := by
  match l with
  | [] =>
    simp only [List.nil_append, List.length_nil, Nat.le_zero] at hle
    exact absurd hle h
  | [b] =>
    rcases r with _ | ⟨x, _ | ⟨y, _ | ⟨z, rs⟩⟩⟩ <;>
      simp only [validCharLen, List.cons_append, List.nil_append,
        List.length_cons, List.length_nil] at hle h ⊢ <;>
      split_ifs at hle h ⊢ <;> simp_all
  | [b, c] =>
    rcases r with _ | ⟨x, _ | ⟨y, rs⟩⟩ <;>
      simp only [validCharLen, List.cons_append, List.nil_append,
        List.length_cons, List.length_nil] at hle h ⊢ <;>
      split_ifs at hle h ⊢ <;> simp_all
  | [b, c, d] =>
    rcases r with _ | ⟨x, rs⟩ <;>
      simp only [validCharLen, List.cons_append, List.nil_append,
        List.length_cons, List.length_nil] at hle h ⊢ <;>
      split_ifs at hle h ⊢ <;> simp_all
  | b :: c :: d :: e :: t =>
    simp only [validCharLen, List.cons_append]

/-! ### Lemmas about `utf8ValidUpTo` -/

theorem validUpToFuel_congr :
    ∀ f g (l : List Nat), l.length ≤ f → l.length ≤ g →
      validUpToFuel f l = validUpToFuel g l := by
  intro f
  induction f with
  | zero =>
    intro g l hf _
    have : l = [] := List.length_eq_zero.mp (Nat.le_zero.mp hf)
    subst this
    cases g <;> simp [validUpToFuel, validCharLen]
  | succ n ih =>
    intro g l hf hg
    cases g with
    | zero =>
      have : l = [] := List.length_eq_zero.mp (Nat.le_zero.mp hg)
      subst this
      simp [validUpToFuel, validCharLen]
    | succ m =>
      simp only [validUpToFuel]
      by_cases hk : validCharLen l = 0
      · simp [hk]
      · simp only [hk, if_false]
        have hk1 : 1 ≤ validCharLen l := Nat.one_le_iff_ne_zero.mpr hk
        have hdl : (l.drop (validCharLen l)).length ≤ n := by
          simp only [List.length_drop]; omega
        have hdg : (l.drop (validCharLen l)).length ≤ m := by
          simp only [List.length_drop]; omega
        rw [ih m (l.drop (validCharLen l)) hdl hdg]

theorem utf8ValidUpTo_eq (l : List Nat) :
    utf8ValidUpTo l =
      if validCharLen l = 0 then 0
      else validCharLen l + utf8ValidUpTo (l.drop (validCharLen l)) := by
  cases l with
  | nil => simp [utf8ValidUpTo, validUpToFuel, validCharLen]
  | cons b t =>
    show validUpToFuel (t.length + 1) (b :: t) = _
    simp only [validUpToFuel]
    by_cases hk : validCharLen (b :: t) = 0
    · simp [hk]
    · simp only [hk, if_false]
      congr 1
      apply validUpToFuel_congr
      · have := validCharLen_le (b :: t)
        have hk1 : 1 ≤ validCharLen (b :: t) := Nat.one_le_iff_ne_zero.mpr hk
        simp only [List.length_drop, List.length_cons]
        omega
      · exact Nat.le_refl _

theorem utf8ValidUpTo_nil : utf8ValidUpTo [] = 0 := by
  simp [utf8ValidUpTo, validUpToFuel]

theorem utf8ValidUpTo_le (l : List Nat) : utf8ValidUpTo l ≤ l.length := by
  have main : ∀ n (l : List Nat), l.length ≤ n → utf8ValidUpTo l ≤ l.length := by
    intro n
    induction n with
    | zero =>
      intro l h
      have : l = [] := List.length_eq_zero.mp (Nat.le_zero.mp h)
      subst this
      simp [utf8ValidUpTo_nil]
    | succ m ih =>
      intro l h
      rw [utf8ValidUpTo_eq]
      by_cases hk : validCharLen l = 0
      · simp [hk]
      · simp only [hk, if_false]
        have hk1 : 1 ≤ validCharLen l := Nat.one_le_iff_ne_zero.mpr hk
        have hkle := validCharLen_le l
        have hd : (l.drop (validCharLen l)).length ≤ m := by
          simp only [List.length_drop]; omega
        have := ih (l.drop (validCharLen l)) hd
        simp only [List.length_drop] at this
        omega
  exact main l.length l (Nat.le_refl _)

theorem utf8IsValid_iff (l : List Nat) :
    utf8IsValid l = true ↔ utf8ValidUpTo l = l.length := by
  simp [utf8IsValid]

theorem utf8IsValid_nil : utf8IsValid [] = true := by decide

/-- A nonzero `validCharLen` prefix is itself valid UTF-8. -/
theorem validCharLen_take_valid (l : List Nat) (h : validCharLen l ≠ 0) :
    utf8IsValid (l.take (validCharLen l)) = true := by
  have hkle := validCharLen_le l
  have hlen : (l.take (validCharLen l)).length = validCharLen l := by
    simp [List.length_take]; omega
  have hsplit : l.take (validCharLen l) ++ l.drop (validCharLen l) = l :=
    List.take_append_drop _ l
  have hpre : validCharLen (l.take (validCharLen l)) = validCharLen l := by
    have := validCharLen_prefix (l.take (validCharLen l)) (l.drop (validCharLen l))
    rw [hsplit] at this
    exact this (by omega) h
  rw [utf8IsValid_iff, utf8ValidUpTo_eq, hpre]
  simp only [h, if_false]
  have hdrop : (l.take (validCharLen l)).drop (validCharLen l) = [] := by
    apply List.eq_nil_of_length_eq_zero
    simp [List.length_drop, hlen]
  rw [hdrop, utf8ValidUpTo_nil, hlen]
  omega

/-- Peeling a valid prefix: `valid_up_to` distributes over an append whose
left part is wholly valid. -/
theorem utf8ValidUpTo_append (a b : List Nat) (h : utf8IsValid a = true) :
    utf8ValidUpTo (a ++ b) = a.length + utf8ValidUpTo b := by
  rw [utf8IsValid_iff] at h
  have main : ∀ n (a : List Nat), a.length ≤ n → utf8ValidUpTo a = a.length →
      utf8ValidUpTo (a ++ b) = a.length + utf8ValidUpTo b := by
    intro n
    induction n with
    | zero =>
      intro a ha hv
      have : a = [] := List.length_eq_zero.mp (Nat.le_zero.mp ha)
      subst this
      simp
    | succ m ih =>
      intro a ha hv
      by_cases hnil : a = []
      · subst hnil; simp
      · have hk : validCharLen a ≠ 0 := by
          intro hk0
          rw [utf8ValidUpTo_eq, hk0] at hv
          simp at hv
          exact hnil (List.eq_nil_of_length_eq_zero hv.symm)
        have hk1 : 1 ≤ validCharLen a := Nat.one_le_iff_ne_zero.mpr hk
        have hkle := validCharLen_le a
        have hka : validCharLen (a ++ b) = validCharLen a :=
          validCharLen_append a b hk
        rw [utf8ValidUpTo_eq] at hv
        simp only [hk, if_false] at hv
        have hdv : utf8ValidUpTo (a.drop (validCharLen a)) =
            (a.drop (validCharLen a)).length := by
          simp only [List.length_drop]; omega
        have hdlen : (a.drop (validCharLen a)).length ≤ m := by
          simp only [List.length_drop]; omega
        have ihd := ih (a.drop (validCharLen a)) hdlen hdv
        rw [utf8ValidUpTo_eq, hka]
        simp only [hk, if_false]
        rw [List.drop_append_of_le_length hkle, ihd]
        simp only [List.length_drop]
        omega
  exact main a.length a (Nat.le_refl _) h

theorem utf8IsValid_append (a b : List Nat) (ha : utf8IsValid a = true)
    (hb : utf8IsValid b = true) : utf8IsValid (a ++ b) = true := by
  rw [utf8IsValid_iff] at hb ⊢
  rw [utf8ValidUpTo_append a b ha, hb]
  simp

theorem utf8IsValid_append_right (a b : List Nat)
    (hab : utf8IsValid (a ++ b) = true) (ha : utf8IsValid a = true) :
    utf8IsValid b = true := by
  rw [utf8IsValid_iff] at hab ⊢
  rw [utf8ValidUpTo_append a b ha] at hab
  simp only [List.length_append] at hab
  omega

/-- The valid prefix found by `from_utf8` is valid UTF-8 (this is what
justifies the `from_utf8_unchecked` call in `push`). -/
theorem utf8ValidUpTo_take_valid (l : List Nat) :
    utf8IsValid (l.take (utf8ValidUpTo l)) = true := by
  have main : ∀ n (l : List Nat), l.length ≤ n →
      utf8IsValid (l.take (utf8ValidUpTo l)) = true := by
    intro n
    induction n with
    | zero =>
      intro l h
      have : l = [] := List.length_eq_zero.mp (Nat.le_zero.mp h)
      subst this
      simp [utf8ValidUpTo_nil, utf8IsValid_nil]
    | succ m ih =>
      intro l h
      rw [utf8ValidUpTo_eq]
      by_cases hk : validCharLen l = 0
      · simp [hk, utf8IsValid_nil]
      · simp only [hk, if_false]
        have hk1 : 1 ≤ validCharLen l := Nat.one_le_iff_ne_zero.mpr hk
        have hkle := validCharLen_le l
        rw [List.take_add]
        apply utf8IsValid_append
        · exact validCharLen_take_valid l hk
        · have hd : (l.drop (validCharLen l)).length ≤ m := by
            simp only [List.length_drop]; omega
          exact ih (l.drop (validCharLen l)) hd
  exact main l.length l (Nat.le_refl _)

/-- After the valid prefix, no complete valid scalar encoding starts. -/
theorem utf8ValidUpTo_drop_zero (l : List Nat) :
    utf8ValidUpTo (l.drop (utf8ValidUpTo l)) = 0 := by
  have main : ∀ n (l : List Nat), l.length ≤ n →
      utf8ValidUpTo (l.drop (utf8ValidUpTo l)) = 0 := by
    intro n
    induction n with
    | zero =>
      intro l h
      have : l = [] := List.length_eq_zero.mp (Nat.le_zero.mp h)
      subst this
      simp [utf8ValidUpTo_nil]
    | succ m ih =>
      intro l h
      by_cases hk : validCharLen l = 0
      · have h0 : utf8ValidUpTo l = 0 := by
          rw [utf8ValidUpTo_eq, hk]; simp
        rw [h0, List.drop_zero]
        exact h0
      · have heq := utf8ValidUpTo_eq l
        simp only [hk, if_false] at heq
        have hk1 : 1 ≤ validCharLen l := Nat.one_le_iff_ne_zero.mpr hk
        have hkle := validCharLen_le l
        have hd : (l.drop (validCharLen l)).length ≤ m := by
          simp only [List.length_drop]; omega
        have hih := ih (l.drop (validCharLen l)) hd
        rw [List.drop_drop] at hih
        rw [heq]
        exact hih
  exact main l.length l (Nat.le_refl _)

/-! ### Lemmas about the incomplete-sequence classifier -/

theorem iseqGo_le (t : List Nat) : ∀ i n, iseqGo t i = some n → n ≤ i + 1 := by
  intro i
  induction i with
  | zero =>
    intro n h
    simp only [iseqGo] at h
    split_ifs at h <;>
      first
        | exact Option.noConfusion h
        | (injection h with h2; omega)
  | succ j ih =>
    intro n h
    simp only [iseqGo] at h
    split_ifs at h <;>
      first
        | (injection h with h2; omega)
        | exact Nat.le_succ_of_le (ih n h)

theorem incomplete_sequence_len_le (t : List Nat) :
    incomplete_sequence_len t ≤ t.length := by
  by_cases hne : t = []
  · simp [incomplete_sequence_len, hne]
  · simp only [incomplete_sequence_len, hne, if_false]
    have h1 : 1 ≤ t.length := by
      cases t with
      | nil => exact absurd rfl hne
      | cons a b => simp
    cases hgo : iseqGo t (min t.length 4 - 1) with
    | none =>
      show min (min t.length 4) 3 ≤ t.length
      omega
    | some n =>
      show n ≤ t.length
      have := iseqGo_le t (min t.length 4 - 1) n hgo
      omega

set_option maxRecDepth 10000 in
/-- Byte-range facts used to evaluate the classifier on leading bytes of
valid characters (checked exhaustively on machine bytes). -/
theorem lead_byte_facts : ∀ b, b < 256 → 0xC2 ≤ b → b ≤ 0xF4 →
    (b &&& 0x80 = 0) = False ∧ (b &&& 0xC0 = 0x80) = False := by decide

set_option maxRecDepth 10000 in
theorem char_len_two : ∀ b, b < 256 → 0xC2 ≤ b → b ≤ 0xDF →
    utf8_char_len b = 2 := by decide

set_option maxRecDepth 10000 in
theorem char_len_three : ∀ b, b < 256 → 0xE0 ≤ b → b ≤ 0xEF →
    utf8_char_len b = 3 := by decide

set_option maxRecDepth 10000 in
theorem char_len_four : ∀ b, b < 256 → 0xF0 ≤ b → b ≤ 0xF4 →
    utf8_char_len b = 4 := by decide

/-- Extraction of head-byte ranges from a successful `validCharLen`. -/
theorem validCharLen_head_range (b : Nat) (rest : List Nat) :
    (validCharLen (b :: rest) = 1 → b ≤ 0x7F) ∧
    (validCharLen (b :: rest) = 2 → 0xC2 ≤ b ∧ b ≤ 0xDF) ∧
    (validCharLen (b :: rest) = 3 → 0xE0 ≤ b ∧ b ≤ 0xEF) ∧
    (validCharLen (b :: rest) = 4 → 0xF0 ≤ b ∧ b ≤ 0xF4) := by
  rcases rest with _ | ⟨c, _ | ⟨d, _ | ⟨e, rs⟩⟩⟩ <;>
    simp only [validCharLen] <;> split_ifs <;> refine ⟨?_, ?_, ?_, ?_⟩ <;>
    intro hh <;> simp_all <;> omega

/-- Classifier evaluation at a single symbolic leading byte. -/
theorem iseq_one (b : Nat) (hA : (b &&& 0x80 = 0) = False)
    (hB : (b &&& 0xC0 = 0x80) = False) (hk : 1 < utf8_char_len b) :
    incomplete_sequence_len [b] = 1 := by
  have hbyte : ([b] : List Nat).getD (([b] : List Nat).length - 1) 0 = b := by simp
  have h1 : iseqGo [b] 0 = some 1 := by
    simp only [iseqGo, hbyte]
    rw [if_neg (show ¬(b &&& 0x80 = 0) by simp [hA]),
      if_pos (show b &&& 0xC0 ≠ 0x80 by simp [hB]),
      if_pos (show 0 < utf8_char_len b ∧ 0 + 1 < utf8_char_len b by omega)]
  simp [incomplete_sequence_len, h1]

/-- Classifier evaluation at a leading byte followed by one more byte. -/
theorem iseq_two (b c : Nat) (hA : (b &&& 0x80 = 0) = False)
    (hB : (b &&& 0xC0 = 0x80) = False) (hk : 2 < utf8_char_len b) :
    incomplete_sequence_len [b, c] = 2 := by
  have hbyte : ([b, c] : List Nat).getD
      (([b, c] : List Nat).length - 1 - (0 + 1)) 0 = b := by simp
  have h1 : iseqGo [b, c] 1 = some 2 := by
    simp only [iseqGo, hbyte]
    rw [if_neg (show ¬(b &&& 0x80 = 0) by simp [hA]),
      if_pos (show b &&& 0xC0 ≠ 0x80 by simp [hB]),
      if_pos (show 0 < utf8_char_len b ∧ 0 + 1 + 1 < utf8_char_len b by omega)]
  simp [incomplete_sequence_len, h1]

/-- Classifier evaluation at a leading byte followed by two more bytes. -/
theorem iseq_three (b c d : Nat) (hA : (b &&& 0x80 = 0) = False)
    (hB : (b &&& 0xC0 = 0x80) = False) (hk : 3 < utf8_char_len b) :
    incomplete_sequence_len [b, c, d] = 3 := by
  have hbyte : ([b, c, d] : List Nat).getD
      (([b, c, d] : List Nat).length - 1 - (1 + 1)) 0 = b := by simp
  have h1 : iseqGo [b, c, d] 2 = some 3 := by
    simp only [iseqGo, hbyte]
    rw [if_neg (show ¬(b &&& 0x80 = 0) by simp [hA]),
      if_pos (show b &&& 0xC0 ≠ 0x80 by simp [hB]),
      if_pos (show 0 < utf8_char_len b ∧ 1 + 1 + 1 < utf8_char_len b by omega)]
  simp [incomplete_sequence_len, h1]

/-- The central structure lemma: if no valid scalar starts at the head of a
non-empty `t`, yet `t ++ r` is valid UTF-8, then `t` is a strict prefix of
a single multi-byte scalar encoding, and the classifier keeps exactly all
of `t` (at most 3 bytes). -/
theorem trailing_incomplete (t r : List Nat) (hne : t ≠ [])
    (h0 : utf8ValidUpTo t = 0) (hv : utf8IsValid (t ++ r) = true) :
    incomplete_sequence_len t = t.length ∧ t.length ≤ 3 := by
  have hk0 : validCharLen (t ++ r) ≠ 0 := by
    intro hk
    rw [utf8IsValid_iff] at hv
    rw [utf8ValidUpTo_eq, hk] at hv
    simp only [if_pos] at hv
    cases t with
    | nil => exact hne rfl
    | cons a ts =>
      simp only [List.cons_append, List.length_cons, List.length_append] at hv
      omega
  have hklen : ¬ validCharLen (t ++ r) ≤ t.length := by
    intro hle
    have hpre := validCharLen_prefix t r hle hk0
    have hne0 : validCharLen t ≠ 0 := by rw [hpre]; exact hk0
    rw [utf8ValidUpTo_eq] at h0
    simp only [hne0, if_false] at h0
    have := Nat.one_le_iff_ne_zero.mpr hne0
    omega
  have hk4 : validCharLen (t ++ r) ≤ 4 := validCharLen_le_four (t ++ r)
  match t, hklen with
  | [b], hklen =>
    have hrange := validCharLen_head_range b (r)
    have hcase : validCharLen ([b] ++ r) = 2 ∨ validCharLen ([b] ++ r) = 3 ∨
        validCharLen ([b] ++ r) = 4 := by
      simp only [List.length_cons, List.length_nil] at hklen
      omega
    simp only [List.cons_append, List.nil_append] at hcase
    have hb : 0xC2 ≤ b ∧ b ≤ 0xF4 ∧ 1 < utf8_char_len b := by
      rcases hcase with h | h | h
      · have hr := hrange.2.1 h
        have hlen := char_len_two b (by omega) hr.1 hr.2
        omega
      · have hr := hrange.2.2.1 h
        have hlen := char_len_three b (by omega) hr.1 hr.2
        omega
      · have hr := hrange.2.2.2 h
        have hlen := char_len_four b (by omega) hr.1 hr.2
        omega
    have hmask := lead_byte_facts b (by omega) hb.1 hb.2.1
    exact ⟨by rw [iseq_one b hmask.1 hmask.2 hb.2.2]; simp, by simp⟩
  | [b, c], hklen =>
    have hrange := validCharLen_head_range b (c :: r)
    have hcase : validCharLen ([b, c] ++ r) = 3 ∨ validCharLen ([b, c] ++ r) = 4 := by
      simp only [List.length_cons, List.length_nil] at hklen
      omega
    simp only [List.cons_append, List.nil_append] at hcase
    have hb : 0xC2 ≤ b ∧ b ≤ 0xF4 ∧ 2 < utf8_char_len b := by
      rcases hcase with h | h
      · have hr := hrange.2.2.1 h
        have hlen := char_len_three b (by omega) hr.1 hr.2
        omega
      · have hr := hrange.2.2.2 h
        have hlen := char_len_four b (by omega) hr.1 hr.2
        omega
    have hmask := lead_byte_facts b (by omega) hb.1 hb.2.1
    exact ⟨by rw [iseq_two b c hmask.1 hmask.2 hb.2.2]; simp, by simp⟩
  | [b, c, d], hklen =>
    have hrange := validCharLen_head_range b (c :: d :: r)
    have hcase : validCharLen ([b, c, d] ++ r) = 4 := by
      simp only [List.length_cons, List.length_nil] at hklen
      omega
    simp only [List.cons_append, List.nil_append] at hcase
    have hb : 0xC2 ≤ b ∧ b ≤ 0xF4 ∧ 3 < utf8_char_len b := by
      have hr := hrange.2.2.2 hcase
      have hlen := char_len_four b (by omega) hr.1 hr.2
      omega
    have hmask := lead_byte_facts b (by omega) hb.1 hb.2.1
    exact ⟨by rw [iseq_three b c d hmask.1 hmask.2 hb.2.2]; simp, by simp⟩
  | b :: c :: d :: e :: ts, hklen =>
    exfalso
    apply hklen
    simp only [List.length_cons]
    omega

/-! ### Characterization of the branches of `push` -/

theorem push_nil (buf : List Nat) : push buf [] = (none, buf) := by
  simp [push]

theorem push_fast (data : List Nat) (hd : data ≠ [])
    (hv : utf8IsValid data = true) : push [] data = (some data, []) := by
  simp [push, hd, hv]

theorem push_whole_valid (buf data : List Nat) (hd : data ≠ [])
    (hfast : ¬(buf = [] ∧ utf8IsValid data = true))
    (hm : utf8IsValid (buf ++ data) = true) :
    push buf data = (some (buf ++ data), []) := by
  simp only [push, if_neg hd, if_neg hfast, if_pos hm]

theorem push_stuck (buf data : List Nat) (hd : data ≠ [])
    (hfast : ¬(buf = [] ∧ utf8IsValid data = true))
    (hm : ¬ utf8IsValid (buf ++ data) = true)
    (hz : incomplete_sequence_len
        ((buf ++ data).drop (utf8ValidUpTo (buf ++ data))) = 0 ∧
      utf8ValidUpTo (buf ++ data) = 0) :
    push buf data = (none, buf ++ data) := by
  simp only [push, if_neg hd, if_neg hfast, if_neg hm, if_pos hz]

theorem push_error (buf data : List Nat) (hd : data ≠ [])
    (hfast : ¬(buf = [] ∧ utf8IsValid data = true))
    (hm : ¬ utf8IsValid (buf ++ data) = true)
    (hnz : ¬(incomplete_sequence_len
        ((buf ++ data).drop (utf8ValidUpTo (buf ++ data))) = 0 ∧
      utf8ValidUpTo (buf ++ data) = 0)) :
    push buf data =
      (if 0 < utf8ValidUpTo (buf ++ data)
        then some ((buf ++ data).take (utf8ValidUpTo (buf ++ data))) else none,
       if 0 < incomplete_sequence_len
          ((buf ++ data).drop (utf8ValidUpTo (buf ++ data)))
        then (buf ++ data).drop ((buf ++ data).length -
          incomplete_sequence_len
            ((buf ++ data).drop (utf8ValidUpTo (buf ++ data))))
        else []) := by
  simp only [push, if_neg hd, if_neg hfast, if_neg hm, if_neg hnz]

/-! ### The single-push step of split-invariance -/

/-- One `push` on a prefix of a valid stream: the emitted text plus the new
buffer account for every byte, and the new buffer is again an incomplete
prefix of the remaining stream. -/
theorem push_step (buf data r : List Nat)
    (h0 : utf8ValidUpTo buf = 0)
    (hv : utf8IsValid (buf ++ (data ++ r)) = true) :
    outBytes (push buf data).1 ++ (push buf data).2 = buf ++ data ∧
    utf8ValidUpTo (push buf data).2 = 0 ∧
    utf8IsValid ((push buf data).2 ++ r) = true := by
  by_cases hd : data = []
  · subst hd
    rw [push_nil]
    refine ⟨by simp [outBytes], h0, ?_⟩
    simpa using hv
  · by_cases hfast : buf = [] ∧ utf8IsValid data = true
    · obtain ⟨hb, hvd⟩ := hfast
      subst hb
      rw [push_fast data hd hvd]
      refine ⟨by simp [outBytes], utf8ValidUpTo_nil, ?_⟩
      simp only [List.nil_append] at hv ⊢
      exact utf8IsValid_append_right data r hv hvd
    · by_cases hm : utf8IsValid (buf ++ data) = true
      · rw [push_whole_valid buf data hd hfast hm]
        refine ⟨by simp [outBytes], utf8ValidUpTo_nil, ?_⟩
        rw [← List.append_assoc] at hv
        exact utf8IsValid_append_right _ _ hv hm
      · have hvle := utf8ValidUpTo_le (buf ++ data)
        have hvlt : utf8ValidUpTo (buf ++ data) < (buf ++ data).length := by
          rcases Nat.lt_or_ge (utf8ValidUpTo (buf ++ data)) (buf ++ data).length
            with hcase | hcase
          · exact hcase
          · exact absurd (by rw [utf8IsValid_iff]; omega) hm
        have htne : (buf ++ data).drop (utf8ValidUpTo (buf ++ data)) ≠ [] := by
          intro hteq
          have : ((buf ++ data).drop (utf8ValidUpTo (buf ++ data))).length = 0 := by
            rw [hteq]; rfl
          simp only [List.length_drop] at this
          omega
        have ht0 : utf8ValidUpTo ((buf ++ data).drop (utf8ValidUpTo (buf ++ data))) = 0 :=
          utf8ValidUpTo_drop_zero (buf ++ data)
        have hmr : utf8IsValid ((buf ++ data) ++ r) = true := by
          rw [List.append_assoc]; exact hv
        have htr : utf8IsValid
            ((buf ++ data).drop (utf8ValidUpTo (buf ++ data)) ++ r) = true := by
          have hsplit : (buf ++ data) ++ r =
              (buf ++ data).take (utf8ValidUpTo (buf ++ data)) ++
                ((buf ++ data).drop (utf8ValidUpTo (buf ++ data)) ++ r) := by
            rw [← List.append_assoc, List.take_append_drop]
          rw [hsplit] at hmr
          exact utf8IsValid_append_right _ _ hmr (utf8ValidUpTo_take_valid (buf ++ data))
        obtain ⟨hninc, hlen3⟩ := trailing_incomplete _ r htne ht0 htr
        have htlen : ((buf ++ data).drop (utf8ValidUpTo (buf ++ data))).length =
            (buf ++ data).length - utf8ValidUpTo (buf ++ data) := by
          simp [List.length_drop]
        have hnpos : 0 < incomplete_sequence_len
            ((buf ++ data).drop (utf8ValidUpTo (buf ++ data))) := by
          rw [hninc, htlen]; omega
        have hnz : ¬(incomplete_sequence_len
            ((buf ++ data).drop (utf8ValidUpTo (buf ++ data))) = 0 ∧
          utf8ValidUpTo (buf ++ data) = 0) := by
          intro hcon
          omega
        rw [push_error buf data hd hfast hm hnz]
        have hsub : (buf ++ data).length - incomplete_sequence_len
            ((buf ++ data).drop (utf8ValidUpTo (buf ++ data))) =
            utf8ValidUpTo (buf ++ data) := by
          rw [hninc, htlen]; omega
        simp only [if_pos hnpos, hsub]
        refine ⟨?_, ht0, htr⟩
        by_cases hv0 : 0 < utf8ValidUpTo (buf ++ data)
        · simp only [if_pos hv0, outBytes]
          exact List.take_append_drop _ _
        · have hv00 : utf8ValidUpTo (buf ++ data) = 0 := by omega
          rw [if_neg hv0]
          simp only [outBytes, List.nil_append]
          rw [hv00, List.drop_zero]

/-! ### Split-invariance over a whole chunk sequence -/

theorem pushChunks_spec : ∀ (cs : List (List Nat)) (buf r : List Nat),
    utf8ValidUpTo buf = 0 → utf8IsValid (buf ++ (cs.flatten ++ r)) = true →
    (pushChunks buf cs).1.flatten ++ (pushChunks buf cs).2 = buf ++ cs.flatten ∧
    utf8ValidUpTo (pushChunks buf cs).2 = 0 ∧
    utf8IsValid ((pushChunks buf cs).2 ++ r) = true := by
  intro cs
  induction cs with
  | nil =>
    intro buf r h0 hv
    refine ⟨by simp [pushChunks], h0, ?_⟩
    simpa [pushChunks] using hv
  | cons c cs ih =>
    intro buf r h0 hv
    have hv2 : utf8IsValid (buf ++ (c ++ (cs.flatten ++ r))) = true := by
      have : (c :: cs).flatten ++ r = c ++ (cs.flatten ++ r) := by
        simp [List.flatten_cons, List.append_assoc]
      rw [this] at hv
      exact hv
    obtain ⟨hs1, hs2, hs3⟩ := push_step buf c (cs.flatten ++ r) h0 hv2
    obtain ⟨hi1, hi2, hi3⟩ := ih (push buf c).2 r hs2 hs3
    refine ⟨?_, ?_, ?_⟩
    · show (match (push buf c).1 with
        | some s => s :: (pushChunks (push buf c).2 cs).1
        | none => (pushChunks (push buf c).2 cs).1).flatten ++
          (pushChunks (push buf c).2 cs).2 = buf ++ (c :: cs).flatten
      cases ho : (push buf c).1 with
      | none =>
        simp only [outBytes, ho, List.nil_append] at hs1
        simp only [List.flatten_cons]
        rw [hi1, hs1, List.append_assoc]
      | some sOut =>
        simp only [outBytes, ho] at hs1
        simp only [List.flatten_cons, List.append_assoc]
        rw [hi1, ← List.append_assoc, hs1, List.append_assoc]
    · show utf8ValidUpTo (pushChunks (push buf c).2 cs).2 = 0
      exact hi2
    · show utf8IsValid ((pushChunks (push buf c).2 cs).2 ++ r) = true
      exact hi3

/-! ### What the classifier guarantees about the bytes it keeps -/

/-- When the loop returns a positive count `m`, the byte `m` positions from
the end (the first kept byte) is a multi-byte leading byte whose declared
length exceeds `m`. -/
theorem iseqGo_some_lead (t : List Nat) :
    ∀ i m, iseqGo t i = some m → 0 < m →
      ((t.getD (t.length - m) 0) &&& 0x80 = 0) = False ∧
      ((t.getD (t.length - m) 0) &&& 0xC0 = 0x80) = False ∧
      m < utf8_char_len (t.getD (t.length - m) 0) := by
  intro i
  induction i with
  | zero =>
    intro m h hm
    simp only [iseqGo] at h
    by_cases h1 : (t.getD (t.length - 1) 0) &&& 0x80 = 0
    · rw [if_pos h1] at h; injection h with h4; omega
    · rw [if_neg h1] at h
      by_cases h2 : (t.getD (t.length - 1) 0) &&& 0xC0 ≠ 0x80
      · rw [if_pos h2] at h
        by_cases h3 : 0 < utf8_char_len (t.getD (t.length - 1) 0) ∧
            0 + 1 < utf8_char_len (t.getD (t.length - 1) 0)
        · rw [if_pos h3] at h
          injection h with h4
          have hm1 : m = 1 := by omega
          subst hm1
          exact ⟨eq_false h1, eq_false h2, by omega⟩
        · rw [if_neg h3] at h; injection h with h4; omega
      · rw [if_neg h2] at h; exact Option.noConfusion h
  | succ j ih =>
    intro m h hm
    simp only [iseqGo] at h
    by_cases h1 : (t.getD (t.length - 1 - (j + 1)) 0) &&& 0x80 = 0
    · rw [if_pos h1] at h; exact ih m h hm
    · rw [if_neg h1] at h
      by_cases h2 : (t.getD (t.length - 1 - (j + 1)) 0) &&& 0xC0 ≠ 0x80
      · rw [if_pos h2] at h
        by_cases h3 : 0 < utf8_char_len (t.getD (t.length - 1 - (j + 1)) 0) ∧
            (j + 1) + 1 < utf8_char_len (t.getD (t.length - 1 - (j + 1)) 0)
        · rw [if_pos h3] at h
          injection h with h4
          have hm2 : m = j + 2 := by omega
          subst hm2
          have hidx : t.length - 1 - (j + 1) = t.length - (j + 2) := by omega
          rw [hidx] at h1 h2 h3
          exact ⟨eq_false h1, eq_false h2, by omega⟩
        · rw [if_neg h3] at h; injection h with h4; omega
      · rw [if_neg h2] at h; exact ih m h hm

/-- When the loop falls through, the final byte is a continuation byte and
every inspected byte (distance `j ≤ i` from the end) is ASCII-masked or a
continuation byte. -/
theorem iseqGo_none_cont (t : List Nat) :
    ∀ i, iseqGo t i = none →
      ((t.getD (t.length - 1) 0) &&& 0xC0 = 0x80) ∧
      (∀ j, j ≤ i → (t.getD (t.length - 1 - j) 0) &&& 0x80 = 0 ∨
        (t.getD (t.length - 1 - j) 0) &&& 0xC0 = 0x80) := by
  intro i
  induction i with
  | zero =>
    intro h
    simp only [iseqGo] at h
    by_cases h1 : (t.getD (t.length - 1) 0) &&& 0x80 = 0
    · rw [if_pos h1] at h; exact Option.noConfusion h
    · rw [if_neg h1] at h
      by_cases h2 : (t.getD (t.length - 1) 0) &&& 0xC0 ≠ 0x80
      · rw [if_pos h2] at h
        by_cases h3 : 0 < utf8_char_len (t.getD (t.length - 1) 0) ∧
            0 + 1 < utf8_char_len (t.getD (t.length - 1) 0)
        · rw [if_pos h3] at h; exact Option.noConfusion h
        · rw [if_neg h3] at h; exact Option.noConfusion h
      · have hc : (t.getD (t.length - 1) 0) &&& 0xC0 = 0x80 := not_not.mp h2
        refine ⟨hc, ?_⟩
        intro j hj
        have hj0 : j = 0 := by omega
        subst hj0
        right
        simpa using hc
  | succ j ih =>
    intro h
    simp only [iseqGo] at h
    by_cases h1 : (t.getD (t.length - 1 - (j + 1)) 0) &&& 0x80 = 0
    · rw [if_pos h1] at h
      obtain ⟨hlast, hall⟩ := ih h
      refine ⟨hlast, ?_⟩
      intro jj hjj
      rcases Nat.lt_or_ge jj (j + 1) with hlt | hge
      · exact hall jj (by omega)
      · have hjeq : jj = j + 1 := by omega
        subst hjeq
        exact Or.inl h1
    · rw [if_neg h1] at h
      by_cases h2 : (t.getD (t.length - 1 - (j + 1)) 0) &&& 0xC0 ≠ 0x80
      · rw [if_pos h2] at h
        by_cases h3 : 0 < utf8_char_len (t.getD (t.length - 1 - (j + 1)) 0) ∧
            (j + 1) + 1 < utf8_char_len (t.getD (t.length - 1 - (j + 1)) 0)
        · rw [if_pos h3] at h; exact Option.noConfusion h
        · rw [if_neg h3] at h; exact Option.noConfusion h
      · rw [if_neg h2] at h
        obtain ⟨hlast, hall⟩ := ih h
        refine ⟨hlast, ?_⟩
        intro jj hjj
        rcases Nat.lt_or_ge jj (j + 1) with hlt | hge
        · exact hall jj (by omega)
        · have hjeq : jj = j + 1 := by omega
          subst hjeq
          exact Or.inr (not_not.mp h2)

set_option maxRecDepth 10000 in
/-- Mask classes pin down byte ranges (exhaustive check on machine bytes). -/
theorem mask_two_range : ∀ b, b < 256 → utf8_char_len b = 2 →
    0xC0 ≤ b ∧ b ≤ 0xDF := by decide

set_option maxRecDepth 10000 in
theorem mask_three_range : ∀ b, b < 256 → utf8_char_len b = 3 →
    0xE0 ≤ b ∧ b ≤ 0xEF := by decide

set_option maxRecDepth 10000 in
theorem mask_four_range : ∀ b, b < 256 → utf8_char_len b = 4 →
    0xF0 ≤ b ∧ b ≤ 0xF7 := by decide

set_option maxRecDepth 10000 in
theorem ascii_not_cont : ∀ b, b < 256 → b ≤ 0x7F → ¬(b &&& 0xC0 = 0x80) := by
  decide

/-- A leading byte declaring more bytes than are present never forms a
complete valid scalar. -/
theorem validCharLen_short (b : Nat) (rest : List Nat) (hb : b < 256)
    (hA : (b &&& 0x80 = 0) = False)
    (hlen : rest.length + 1 < utf8_char_len b) : validCharLen (b :: rest) = 0 := by
  have he4 : utf8_char_len b ≤ 4 := by
    simp only [utf8_char_len]; split_ifs <;> omega
  have he1 : utf8_char_len b ≠ 1 := by
    intro h1
    simp only [utf8_char_len] at h1
    split_ifs at h1 <;> simp_all
  have hcases : utf8_char_len b = 2 ∨ utf8_char_len b = 3 ∨ utf8_char_len b = 4 := by
    omega
  rcases hcases with he | he | he
  · have hr := mask_two_range b hb he
    have hrest : rest = [] := by
      rw [he] at hlen
      exact List.eq_nil_of_length_eq_zero (by omega)
    subst hrest
    simp only [validCharLen]
    split_ifs <;> omega
  · have hr := mask_three_range b hb he
    have hrest : rest.length ≤ 1 := by rw [he] at hlen; omega
    rcases rest with _ | ⟨c, _ | ⟨d, rs⟩⟩
    · simp only [validCharLen]; split_ifs <;> omega
    · simp only [validCharLen]; split_ifs <;> omega
    · exfalso; simp only [List.length_cons] at hrest; omega
  · have hr := mask_four_range b hb he
    have hrest : rest.length ≤ 2 := by rw [he] at hlen; omega
    rcases rest with _ | ⟨c, _ | ⟨d, _ | ⟨e, rs⟩⟩⟩
    · simp only [validCharLen]; split_ifs <;> omega
    · simp only [validCharLen]; split_ifs <;> omega
    · simp only [validCharLen]; split_ifs <;> omega
    · exfalso; simp only [List.length_cons] at hrest; omega

/-- In valid UTF-8 made only of ASCII-masked and continuation-masked bytes,
no byte is a continuation byte (so in fact none can occur). -/
theorem valid_no_cont : ∀ n (l : List Nat), l.length ≤ n →
    utf8IsValid l = true → (∀ x ∈ l, x < 256) →
    (∀ x ∈ l, x &&& 0x80 = 0 ∨ x &&& 0xC0 = 0x80) →
    ∀ x ∈ l, ¬(x &&& 0xC0 = 0x80) := by
  intro n
  induction n with
  | zero =>
    intro l hl _ _ _ x hx
    have : l = [] := List.length_eq_zero.mp (Nat.le_zero.mp hl)
    subst this
    simp at hx
  | succ nn ih =>
    intro l hl hv hb256 hclass x hx
    cases l with
    | nil => simp at hx
    | cons hd tail =>
      have hvu : utf8ValidUpTo (hd :: tail) = tail.length + 1 := by
        rw [utf8IsValid_iff] at hv
        simpa using hv
      have hk0 : validCharLen (hd :: tail) ≠ 0 := by
        intro hk
        rw [utf8ValidUpTo_eq, hk] at hvu
        simp at hvu
      have hk4 : validCharLen (hd :: tail) ≤ 4 := validCharLen_le_four _
      have hrange := validCharLen_head_range hd tail
      have hhd256 : hd < 256 := hb256 hd (List.mem_cons_self hd tail)
      by_cases hk1 : validCharLen (hd :: tail) = 1
      · have h7F : hd ≤ 0x7F := hrange.1 hk1
        have hvt : utf8IsValid tail = true := by
          rw [utf8ValidUpTo_eq, hk1] at hvu
          simp only [one_ne_zero, if_false, List.drop_one, List.tail_cons] at hvu
          rw [utf8IsValid_iff]
          omega
        rcases List.mem_cons.mp hx with hxh | hxt
        · subst hxh
          exact ascii_not_cont x hhd256 h7F
        · have hltail : tail.length ≤ nn := by
            simp only [List.length_cons] at hl; omega
          refine ih tail hltail hvt
            (fun y hy => hb256 y (List.mem_cons_of_mem hd hy))
            (fun y hy => hclass y (List.mem_cons_of_mem hd hy)) x hxt
      · exfalso
        have hcase : validCharLen (hd :: tail) = 2 ∨ validCharLen (hd :: tail) = 3 ∨
            validCharLen (hd :: tail) = 4 := by
          have := Nat.one_le_iff_ne_zero.mpr hk0
          omega
        have hbr : 0xC2 ≤ hd ∧ hd ≤ 0xF4 := by
          rcases hcase with h | h | h
          · have := hrange.2.1 h; omega
          · have := hrange.2.2.1 h; omega
          · have := hrange.2.2.2 h; omega
        have hmask := lead_byte_facts hd hhd256 hbr.1 hbr.2
        rcases hclass hd (List.mem_cons_self hd tail) with hm | hm
        · rw [hmask.1] at hm; exact hm
        · rw [hmask.2] at hm; exact hm

theorem incomplete_eq (t : List Nat) (hne : t ≠ []) :
    incomplete_sequence_len t =
      match iseqGo t (min t.length 4 - 1) with
      | some n => n
      | none => min (min t.length 4) 3 := by
  simp [incomplete_sequence_len, hne]

/-- Bytes kept by the fall-through (all-continuations) branch never form
valid UTF-8: they end in a continuation byte and contain no leading byte. -/
theorem kept_cont_invalid (t : List Nat) (hb : ∀ x ∈ t, x < 256) (n : Nat)
    (hn1 : 1 ≤ n) (hnle : n ≤ min t.length 4)
    (hgo : iseqGo t (min t.length 4 - 1) = none) :
    utf8IsValid (t.drop (t.length - n)) = false := by
  obtain ⟨hlastc, hall⟩ := iseqGo_none_cont t (min t.length 4 - 1) hgo
  have htlen : 1 ≤ t.length := by omega
  have hklen : (t.drop (t.length - n)).length = n := by
    simp only [List.length_drop]; omega
  by_contra hcon
  have hvalid : utf8IsValid (t.drop (t.length - n)) = true := by
    cases hvv : utf8IsValid (t.drop (t.length - n)) with
    | false => exact absurd hvv hcon
    | true => rfl
  have hgd : ∀ p, p < n → t.getD (t.length - n + p) 0 ∈ t.drop (t.length - n) ∧
      t.getD (t.length - n + p) 0 = (t.drop (t.length - n)).getD p 0 := by
    intro p hp
    have hq := List.getElem?_drop t (t.length - n) p
    have hplen : p < (t.drop (t.length - n)).length := by omega
    have hsome : (t.drop (t.length - n))[p]? = some ((t.drop (t.length - n))[p]) :=
      List.getElem?_eq_getElem hplen
    constructor
    · have hmem : (t.drop (t.length - n))[p] ∈ t.drop (t.length - n) :=
        List.getElem_mem hplen
      have : t.getD (t.length - n + p) 0 = (t.drop (t.length - n))[p] := by
        rw [List.getD_eq_getElem?_getD, ← hq, hsome]
        rfl
      rw [this]
      exact hmem
    · rw [List.getD_eq_getElem?_getD, ← hq, hsome,
        List.getD_eq_getElem?_getD, hsome]
  have hclass : ∀ x ∈ t.drop (t.length - n),
      x &&& 0x80 = 0 ∨ x &&& 0xC0 = 0x80 := by
    intro x hx
    obtain ⟨p, hp, hxp⟩ := List.mem_iff_getElem.mp hx
    have hpn : p < n := by omega
    have hidx : t.length - 1 - (n - 1 - p) = t.length - n + p := by omega
    have hj := hall (n - 1 - p) (by omega)
    rw [hidx] at hj
    have hx2 : t.getD (t.length - n + p) 0 = x := by
      have hq := List.getElem?_drop t (t.length - n) p
      have hsome : (t.drop (t.length - n))[p]? = some x := by
        rw [List.getElem?_eq_getElem hp, hxp]
      rw [List.getD_eq_getElem?_getD, ← hq, hsome]
      rfl
    rw [hx2] at hj
    exact hj
  have hb2 : ∀ x ∈ t.drop (t.length - n), x < 256 :=
    fun x hx => hb x (List.drop_subset _ t hx)
  have hlastmem : t.getD (t.length - 1) 0 ∈ t.drop (t.length - n) := by
    have hg := hgd (n - 1) (by omega)
    have hidx : t.length - n + (n - 1) = t.length - 1 := by omega
    rw [hidx] at hg
    exact hg.1
  have hnc := valid_no_cont (t.drop (t.length - n)).length (t.drop (t.length - n))
    (Nat.le_refl _) hvalid hb2 hclass (t.getD (t.length - 1) 0) hlastmem
  exact hnc hlastc

/-- Whatever `incomplete_sequence_len` keeps is never valid UTF-8 on its
own (it is a strict prefix of a multi-byte scalar, or a leading byte with
uninspected garbage, or a continuation-byte run). -/
theorem kept_invalid (t : List Nat) (hb : ∀ x ∈ t, x < 256)
    (hn : 0 < incomplete_sequence_len t) :
    utf8IsValid (t.drop (t.length - incomplete_sequence_len t)) = false := by
  have htne : t ≠ [] := by
    intro hh
    rw [hh] at hn
    simp [incomplete_sequence_len] at hn
  have h1 : 1 ≤ t.length := by
    cases t with
    | nil => exact absurd rfl htne
    | cons a l => simp
  rw [incomplete_eq t htne] at hn ⊢
  cases hgo : iseqGo t (min t.length 4 - 1) with
  | some m =>
    rw [hgo] at hn
    have hm : 0 < m := hn
    show utf8IsValid (t.drop (t.length - m)) = false
    have hml : m ≤ t.length := by
      have := iseqGo_le t (min t.length 4 - 1) m hgo
      omega
    obtain ⟨hA, hB, hE⟩ := iseqGo_some_lead t _ m hgo hm
    have hklen : (t.drop (t.length - m)).length = m := by
      simp only [List.length_drop]; omega
    rcases hkept : t.drop (t.length - m) with _ | ⟨hd, tl⟩
    · rw [hkept] at hklen
      simp at hklen
      omega
    · have hget : t[t.length - m]? = some hd := by
        have h0 := List.getElem?_drop t (t.length - m) 0
        rw [hkept] at h0
        simpa using h0.symm
      have hgetD : t.getD (t.length - m) 0 = hd := by
        rw [List.getD_eq_getElem?_getD, hget]
        rfl
      rw [hgetD] at hA hB hE
      have hmem : hd ∈ t := by
        have hmem0 : hd ∈ t.drop (t.length - m) := by
          rw [hkept]
          exact List.mem_cons_self _ _
        exact List.drop_subset _ t hmem0
      have hd256 : hd < 256 := hb hd hmem
      have htl : tl.length + 1 = m := by
        rw [hkept] at hklen
        simpa using hklen
      have hvcl : validCharLen (hd :: tl) = 0 :=
        validCharLen_short hd tl hd256 hA (by omega)
      have hvu : utf8ValidUpTo (hd :: tl) = 0 := by
        rw [utf8ValidUpTo_eq, hvcl]
        simp
      simp only [utf8IsValid, hvu, List.length_cons]
      rw [beq_eq_false_iff_ne]
      omega
  | none =>
    show utf8IsValid (t.drop (t.length - min (min t.length 4) 3)) = false
    exact kept_cont_invalid t hb (min (min t.length 4) 3) (by omega) (by omega) hgo

/-! ### The state invariant of reachable decoders -/

/-- Every reachable buffer consists of machine bytes and, when non-empty,
is never valid UTF-8 on its own (no complete decodable text is ever
withheld in the buffer). -/
theorem reachable_invariant : ∀ b, Reachable b →
    (∀ x ∈ b, x < 256) ∧ (b = [] ∨ utf8IsValid b = false) := by
  intro b hr
  induction hr with
  | new => exact ⟨by simp, Or.inl rfl⟩
  | push b2 d hrb hd ih =>
    obtain ⟨ihb, ihv⟩ := ih
    by_cases hdn : d = []
    · rw [hdn, push_nil]
      exact ⟨ihb, ihv⟩
    · by_cases hfast : b2 = [] ∧ utf8IsValid d = true
      · rw [hfast.1, push_fast d hdn hfast.2]
        exact ⟨by simp, Or.inl rfl⟩
      · by_cases hm : utf8IsValid (b2 ++ d) = true
        · rw [push_whole_valid b2 d hdn hfast hm]
          exact ⟨by simp, Or.inl rfl⟩
        · have hmb : ∀ x ∈ b2 ++ d, x < 256 := by
            intro x hx
            rcases List.mem_append.mp hx with h | h
            · exact ihb x h
            · exact hd x h
          by_cases hz : incomplete_sequence_len
              ((b2 ++ d).drop (utf8ValidUpTo (b2 ++ d))) = 0 ∧
              utf8ValidUpTo (b2 ++ d) = 0
          · rw [push_stuck b2 d hdn hfast hm hz]
            refine ⟨hmb, Or.inr ?_⟩
            cases hbool : utf8IsValid (b2 ++ d) with
            | false => rfl
            | true => exact absurd hbool hm
          · rw [push_error b2 d hdn hfast hm hz]
            by_cases hnp : 0 < incomplete_sequence_len
                ((b2 ++ d).drop (utf8ValidUpTo (b2 ++ d)))
            · simp only [if_pos hnp]
              have hvle := utf8ValidUpTo_le (b2 ++ d)
              have hnle := incomplete_sequence_len_le
                ((b2 ++ d).drop (utf8ValidUpTo (b2 ++ d)))
              have hdd : ((b2 ++ d).drop (utf8ValidUpTo (b2 ++ d))).drop
                  (((b2 ++ d).drop (utf8ValidUpTo (b2 ++ d))).length -
                    incomplete_sequence_len
                      ((b2 ++ d).drop (utf8ValidUpTo (b2 ++ d)))) =
                  (b2 ++ d).drop ((b2 ++ d).length -
                    incomplete_sequence_len
                      ((b2 ++ d).drop (utf8ValidUpTo (b2 ++ d)))) := by
                rw [List.drop_drop]
                congr 1
                simp only [List.length_drop] at hnle ⊢
                omega
              refine ⟨?_, Or.inr ?_⟩
              · intro x hx
                exact hmb x (List.drop_subset _ _ hx)
              · rw [← hdd]
                exact kept_invalid ((b2 ++ d).drop (utf8ValidUpTo (b2 ++ d)))
                  (fun x hx => hmb x (List.drop_subset _ _ hx)) hnp
            · simp only [if_neg hnp]
              exact ⟨by simp, by simp⟩
  | flush b2 hrb ih =>
    by_cases hb0 : b2 = []
    · rw [hb0]
      simp [flush]
    · simp only [flush, hb0, if_false]
      exact ⟨by simp, by simp⟩

/-! ### Lossy conversion produces replacement characters -/

theorem hasFFFD_append : ∀ (a z : List Nat),
    hasFFFD (a ++ 0xEF :: 0xBF :: 0xBD :: z) = true := by
  intro a
  induction a with
  | nil =>
    intro z
    simp [hasFFFD]
  | cons x xs ih =>
    intro z
    cases xs with
    | nil =>
      simp only [List.cons_append, List.nil_append, hasFFFD]
      rw [Bool.or_eq_true]
      right
      simpa using ih z
    | cons y ys =>
      cases ys with
      | nil =>
        simp only [List.cons_append, List.nil_append, hasFFFD]
        rw [Bool.or_eq_true]
        right
        simpa using ih z
      | cons w ws =>
        simp only [List.cons_append, hasFFFD]
        rw [Bool.or_eq_true]
        right
        have := ih z
        simpa using this

/-- Lossy conversion of anything that is not valid UTF-8 contains at least
one U+FFFD. -/
theorem lossy_hasFFFD (l : List Nat) (h : utf8IsValid l = false) :
    hasFFFD (utf8Lossy l) = true := by
  have hvle := utf8ValidUpTo_le l
  have hvne : utf8ValidUpTo l ≠ l.length := by
    intro hc
    have : utf8IsValid l = true := (utf8IsValid_iff l).mpr hc
    rw [this] at h
    exact Bool.noConfusion h
  have hrest : l.drop (utf8ValidUpTo l) ≠ [] := by
    intro hc
    have : (l.drop (utf8ValidUpTo l)).length = 0 := by rw [hc]; rfl
    simp only [List.length_drop] at this
    omega
  show hasFFFD (lossyGo (l.length + 1) l) = true
  simp only [lossyGo, if_neg hrest]
  cases hseq : invalidSeqLen (l.drop (utf8ValidUpTo l)) with
  | some k => exact hasFFFD_append _ _
  | none => exact hasFFFD_append _ _

/-! ## The claims -/

/-- C1: Buffer bound invariant — the claim is refuted by the code (code
bug).  The crate doc (`src/lib.rs` lines 43-44) promises at most 3
buffered bytes, but the early return of `push` (lines 110-114) skips the
buffer maintenance: pushing `[0xFF, 0xFF, 0xFF, 0xFF]` into a fresh
decoder leaves all 4 bytes buffered, and one more push grows it to 5. -/
theorem C1_buffer_bound_violated :
    buffered_len (push [] [0xFF, 0xFF, 0xFF, 0xFF]).2 = 4 ∧
    buffered_len (push (push [] [0xFF, 0xFF, 0xFF, 0xFF]).2 [0xFF]).2 = 5 := by
  decide

/-- C2: Split-invariance: for every partition of a well-formed UTF-8 byte
sequence `S` into chunks, pushing the chunks in order through a fresh
decoder and flushing yields exactly `S` as text (here: as UTF-8 bytes,
which determines the text uniquely), the buffer ends empty, and the final
flush returns no output. -/
theorem C2_split_invariance (chunks : List (List Nat))
    (h : utf8IsValid chunks.flatten = true) :
    (pushChunks [] chunks).1.flatten = chunks.flatten ∧
    (pushChunks [] chunks).2 = [] ∧
    (flush (pushChunks [] chunks).2).1 = none := by
  obtain ⟨h1, h2, h3⟩ := pushChunks_spec chunks [] [] utf8ValidUpTo_nil
    (by simpa using h)
  rw [List.append_nil] at h3
  have hbf : (pushChunks [] chunks).2 = [] := by
    rw [utf8IsValid_iff] at h3
    exact List.eq_nil_of_length_eq_zero (by omega)
  rw [hbf, List.append_nil, List.nil_append] at h1
  exact ⟨h1, hbf, by rw [hbf]; simp [flush]⟩

/-- Witness for C2: the split `[[ED 95], [9C]]` of the 3-byte character
U+D55C, with hypotheses discharged concretely. -/
theorem C2_split_invariance_witness :
    utf8IsValid ([[0xED, 0x95], [0x9C]] : List (List Nat)).flatten = true ∧
    ((pushChunks [] [[0xED, 0x95], [0x9C]]).1.flatten =
      ([[0xED, 0x95], [0x9C]] : List (List Nat)).flatten ∧
    (pushChunks [] [[0xED, 0x95], [0x9C]]).2 = [] ∧
    (flush (pushChunks [] [[0xED, 0x95], [0x9C]]).2).1 = none) :=
  ⟨by decide, C2_split_invariance [[0xED, 0x95], [0x9C]] (by decide)⟩

/-- C3: Discard clears pending — the claim is refuted by the code (code
bug).  On `push([0xFF])` the classifier reports 0 bytes to keep (the doc
of `incomplete_sequence_len` says these bytes "should be kept… or 0"),
yet the early return of `push` leaves `[0xFF]` in the buffer instead of
discarding it. -/
theorem C3_discard_skipped :
    incomplete_sequence_len [0xFF] = 0 ∧
    push [] [0xFF] = (none, [0xFF]) ∧
    buffered_len (push [] [0xFF]).2 ≠ 0 := by
  decide

/-- C4: Classifier scan direction — the claim is refuted by the code (code
bug).  The comment in the source says "Walk backwards from the end", and
the spec's backward scan on `[0xC3, 0xC3]` finds the final `0xC3` (a
2-byte lead with 1 byte available) and keeps 1 byte, but the loop
`for i in (0..check_len).rev()` with `idx = len - 1 - i` walks the window
forward, stops at the first `0xC3`, and returns 0. -/
theorem C4_scan_direction_diverges :
    incomplete_sequence_len [0xC3, 0xC3] = 0 ∧
    specScanBackward [0xC3, 0xC3] = 1 ∧
    push [] [0xC3, 0xC3] = (none, [0xC3, 0xC3]) := by
  decide

/-- C5 counterexample: the reachable state after `push([0x80])` on a fresh
decoder has the non-empty pending buffer `[0x80]`, a bare continuation
byte, which is not a syntactically plausible incomplete multi-byte prefix
(claim C5 as stated is false). -/
theorem C5_counterexample :
    Reachable [0x80] ∧ specPlausibleIncomplete [0x80] = false ∧
    ([0x80] : List Nat) ≠ [] := by
  refine ⟨?_, by decide, by decide⟩
  have hp : Reachable ((push [] [0x80]).2) :=
    Reachable.push [] [0x80] Reachable.new (by decide)
  have he : (push [] [0x80]).2 = [0x80] := by decide
  rw [he] at hp
  exact hp

/-- C5 (amended): for every reachable decoder state, a non-empty pending
buffer is never valid UTF-8 — it never holds an already-complete decodable
sequence.  (The stronger I2 of the spec fails: the defensive
continuation-run branch keeps bare continuation bytes, the leading-byte
branch does not check the kept tail bytes, and the early-return path keeps
the whole unrecoverable merge.) -/
theorem C5_pending_never_complete (b : List Nat) (hr : Reachable b)
    (hne : b ≠ []) : utf8IsValid b = false := by
  rcases (reachable_invariant b hr).2 with h | h
  · exact absurd h hne
  · exact h

/-- Witness for the amended C5 at the reachable state `[0xED, 0x95]`. -/
theorem C5_pending_never_complete_witness :
    Reachable [0xED, 0x95] ∧ utf8IsValid [0xED, 0x95] = false := by
  have hp : Reachable ((push [] [0xED, 0x95]).2) :=
    Reachable.push [] [0xED, 0x95] Reachable.new (by decide)
  have he : (push [] [0xED, 0x95]).2 = [0xED, 0x95] := by decide
  rw [he] at hp
  exact ⟨hp, C5_pending_never_complete [0xED, 0x95] hp (by decide)⟩

/-- C6 counterexample: `push([0x80, 0x41])` on a fresh decoder returns
no output even though the complete valid text `"A"` (`[0x41]`) is
assemblable from the cumulative unreturned input — the "no output exactly
when nothing assemblable" characterization is false. -/
theorem C6_counterexample :
    (push [] [0x80, 0x41]).1 = none ∧
    (push [] [0x80, 0x41]).2 = [0x80, 0x41] ∧
    hasValidSegment [0x80, 0x41] = true := by
  decide

/-- C6 (amended): a `Some` result of `push` is never the empty string and
is always valid UTF-8 (but `push` may return no output even when complete
valid text from the cumulative input remains unreturned). -/
theorem C6_some_nonempty_valid (buf data s : List Nat)
    (h : (push buf data).1 = some s) :
    s ≠ [] ∧ utf8IsValid s = true := by
  by_cases hd : data = []
  · rw [hd, push_nil] at h
    exact Option.noConfusion h
  · by_cases hfast : buf = [] ∧ utf8IsValid data = true
    · rw [hfast.1, push_fast data hd hfast.2] at h
      injection h with h2
      subst h2
      exact ⟨hd, hfast.2⟩
    · by_cases hm : utf8IsValid (buf ++ data) = true
      · rw [push_whole_valid buf data hd hfast hm] at h
        injection h with h2
        subst h2
        refine ⟨?_, hm⟩
        intro hc
        exact hd (List.append_eq_nil.mp hc).2
      · by_cases hz : incomplete_sequence_len
            ((buf ++ data).drop (utf8ValidUpTo (buf ++ data))) = 0 ∧
            utf8ValidUpTo (buf ++ data) = 0
        · rw [push_stuck buf data hd hfast hm hz] at h
          exact Option.noConfusion h
        · rw [push_error buf data hd hfast hm hz] at h
          by_cases hv0 : 0 < utf8ValidUpTo (buf ++ data)
          · rw [if_pos hv0] at h
            injection h with h2
            subst h2
            refine ⟨?_, utf8ValidUpTo_take_valid (buf ++ data)⟩
            intro hc
            have hlen : ((buf ++ data).take (utf8ValidUpTo (buf ++ data))).length = 0 := by
              rw [hc]; rfl
            rw [List.length_take] at hlen
            have := utf8ValidUpTo_le (buf ++ data)
            omega
          · rw [if_neg hv0] at h
            exact Option.noConfusion h

/-- Witness for the amended C6: the ASCII push `[0x41]`. -/
theorem C6_some_nonempty_valid_witness :
    (push [] [0x41]).1 = some [0x41] ∧ ([0x41] : List Nat) ≠ [] ∧
    utf8IsValid [0x41] = true := by
  refine ⟨by decide, ?_, ?_⟩
  · exact (C6_some_nonempty_valid [] [0x41] [0x41] (by decide)).1
  · exact (C6_some_nonempty_valid [] [0x41] [0x41] (by decide)).2

/-- C7: Flush resets to the initial state: after any `flush` the buffer is
empty (the freshly-constructed state); a non-empty buffer yields a real
result; a second consecutive `flush` returns no output; and `flush` on a
fresh decoder returns no output. -/
theorem C7_flush_resets (b : List Nat) :
    (flush b).2 = [] ∧ (b ≠ [] → ∃ s, (flush b).1 = some s) ∧
    (flush (flush b).2).1 = none ∧ (flush ([] : List Nat)).1 = none := by
  have h2 : (flush b).2 = [] := by
    by_cases hb : b = [] <;> simp [flush, hb]
  refine ⟨h2, ?_, ?_, by simp [flush]⟩
  · intro hne
    exact ⟨utf8Lossy b, by simp [flush, hne]⟩
  · rw [h2]
    simp [flush]

/-- Witness for C7 at the state `[0xED, 0x95]`. -/
theorem C7_flush_resets_witness :
    (flush [0xED, 0x95]).2 = [] ∧ (∃ s, (flush [0xED, 0x95]).1 = some s) ∧
    (flush (flush [0xED, 0x95]).2).1 = none ∧
    (flush ([] : List Nat)).1 = none := by
  obtain ⟨h1, h2, h3, h4⟩ := C7_flush_resets [0xED, 0x95]
  exact ⟨h1, h2 (by decide), h3, h4⟩

/-- C8: Lossy flush marks incompleteness: at every reachable state with a
non-empty pending buffer (in particular after a truncated multi-byte
sequence), `flush` returns the standard lossy UTF-8 conversion of the
pending bytes and that text contains at least one U+FFFD. -/
theorem C8_lossy_flush_fffd (b : List Nat) (hr : Reachable b)
    (hne : b ≠ []) :
    (flush b).1 = some (utf8Lossy b) ∧ (flush b).2 = [] ∧
    hasFFFD (utf8Lossy b) = true := by
  rcases (reachable_invariant b hr).2 with h | h
  · exact absurd h hne
  · exact ⟨by simp [flush, hne], by simp [flush, hne], lossy_hasFFFD b h⟩

/-- Witness for C8 at the reachable state `[0xED, 0x95]`. -/
theorem C8_lossy_flush_fffd_witness :
    Reachable [0xED, 0x95] ∧
    ((flush [0xED, 0x95]).1 = some (utf8Lossy [0xED, 0x95]) ∧
    (flush [0xED, 0x95]).2 = [] ∧ hasFFFD (utf8Lossy [0xED, 0x95]) = true) := by
  have hp : Reachable ((push [] [0xED, 0x95]).2) :=
    Reachable.push [] [0xED, 0x95] Reachable.new (by decide)
  have he : (push [] [0xED, 0x95]).2 = [0xED, 0x95] := by decide
  rw [he] at hp
  exact ⟨hp, C8_lossy_flush_fffd [0xED, 0x95] hp (by decide)⟩

/-- C9: Totality / no panic: the side conditions guarding every partial
operation inside `push` hold unconditionally — the classifier's count
never exceeds the slice length (so `buf.len() - incomplete_len` cannot
underflow and `buf[start..]` is in bounds), `valid_up_to` never exceeds
the buffer length (so `buf[valid_up_to..]` and `buf[..valid_up_to]` are in
bounds), and the `valid_up_to` prefix is valid UTF-8 (justifying
`from_utf8_unchecked`).  All model functions are total. -/
theorem C9_no_panic_guards (t l : List Nat) :
    incomplete_sequence_len t ≤ t.length ∧
    utf8ValidUpTo l ≤ l.length ∧
    utf8IsValid (l.take (utf8ValidUpTo l)) = true ∧
    incomplete_sequence_len (l.drop (utf8ValidUpTo l)) ≤ l.length :=
  ⟨incomplete_sequence_len_le t, utf8ValidUpTo_le l,
    utf8ValidUpTo_take_valid l,
    le_trans (incomplete_sequence_len_le _)
      (by simp only [List.length_drop]; omega)⟩

/-- C10 counterexample: the empty byte sequence is well-formed UTF-8, yet
`push` on a fresh decoder returns no output for it rather than the empty
text — the fast-path equivalence as universally stated fails at `data = []`. -/
theorem C10_counterexample :
    utf8IsValid ([] : List Nat) = true ∧
    (push [] ([] : List Nat)).1 = none ∧
    (push [] ([] : List Nat)).1 ≠ some [] := by
  decide

/-- C10 (amended): for every non-empty well-formed `data` pushed on an
empty decoder, the fast path returns the data itself as text with no
residual state, and the general (buffer-concatenating) path returns
exactly the same result. -/
theorem C10_fast_path_equiv (data : List Nat) (hne : data ≠ [])
    (hv : utf8IsValid data = true) :
    push [] data = (some data, []) ∧ pushGeneral [] data = (some data, []) := by
  refine ⟨push_fast data hne hv, ?_⟩
  simp only [pushGeneral, if_neg hne, List.nil_append]
  rw [if_pos hv]

/-- Witness for the amended C10 at `data = "hi"`. -/
theorem C10_fast_path_equiv_witness :
    utf8IsValid [0x68, 0x69] = true ∧
    (push [] [0x68, 0x69] = (some [0x68, 0x69], []) ∧
    pushGeneral [] [0x68, 0x69] = (some [0x68, 0x69], [])) :=
  ⟨by decide, C10_fast_path_equiv [0x68, 0x69] (by decide) (by decide)⟩

/-! ## Concrete scenario checks from the spec (§8) -/

example : push [] [0xED, 0x95] = (none, [0xED, 0x95]) := by decide
example : push [0xED, 0x95] [0x9C, 0x21] = (some [0xED, 0x95, 0x9C, 0x21], []) := by decide
example : push [] [0x68, 0x69] = (some [0x68, 0x69], []) := by decide
example : push [] [0xFF, 0xFF, 0xFF, 0xFF] = (none, [0xFF, 0xFF, 0xFF, 0xFF]) := by decide
example : push [] [0x80] = (none, [0x80]) := by decide
example : incomplete_sequence_len [0xC3, 0xC3] = 0 := by decide
example : specScanBackward [0xC3, 0xC3] = 1 := by decide
example : flush [0xED, 0x95] = (some [0xEF, 0xBF, 0xBD], []) := by decide
example : push [] [0x68, 0x69, 0xED, 0x95] = (some [0x68, 0x69], [0xED, 0x95]) := by decide
example : push [0xED, 0x95] [0x9C, 0x62, 0x79, 0x65] =
    (some [0xED, 0x95, 0x9C, 0x62, 0x79, 0x65], []) := by decide
example : push [] [0xEA, 0xB0, 0x80, 0xEB] = (some [0xEA, 0xB0, 0x80], [0xEB]) := by decide
example : push [0xEB] [0x82, 0x98] = (some [0xEB, 0x82, 0x98], []) := by decide
example : push [] [0xF0] = (none, [0xF0]) := by decide
example : push [0xF0] [0x9F, 0xA6] = (none, [0xF0, 0x9F, 0xA6]) := by decide
example : push [0xF0, 0x9F, 0xA6] [0x80] = (some [0xF0, 0x9F, 0xA6, 0x80], []) := by decide

end Utf8Chunked
